import Mathlib

set_option maxRecDepth 8000
set_option maxHeartbeats 1000000

/-!
Verification development for the Lenia-style continuous cellular-automaton
engines of this repository.

The embedding covers three engine variants:

* the sparse-kernel direct-convolution engine (240×160 grid, ring kernel of
  radius 6 built by `buildKernel`, toroidal `wrap`, double-buffered `step`);
* the FFT engine with a Lorenz-attractor parameter modulator (128×128 grid,
  dense kernel array, `Lorenz.Step`, genome modulation, clamped grid update);
* the fixed-parameter direct engine of `Lenia2.main.go` (256×256 grid, plain
  Gaussian kernel, `updateField`).

Machine floating-point numbers are modelled as real numbers; fields are total
functions on ℤ × ℤ that the engines only ever read at wrapped (in-range)
indices.  Go's `%` on int is truncated division remainder, embedded as
`Int.tmod`; `math.Hypot dx dy` is `Real.sqrt (dx^2 + dy^2)`.
-/

/-- A field buffer: the Field data model, a grid of real-valued cells indexed
row-first (`A y x` is the Go `A[y][x]`).  The Go arrays are H×W; the engines
read them only at wrapped indices, so a total function is a faithful model. -/
abbrev Buf : Type := ℤ → ℤ → ℝ

/-- Embedding of `wrap` from the sparse engine:
`if x >= 0 { return x % m }; return (x%m + m) % m` with Go's truncated `%`. -/
def wrap (x m : ℤ) : ℤ := if 0 ≤ x then Int.tmod x m else Int.tmod (Int.tmod x m + m) m

/-- Embedding of `clamp(v, a, b)`: `if v < a { return a }; if v > b { return b }; return v`.
The `updateField` of Lenia2 inlines the same two comparisons. -/
noncomputable def clamp (v a b : ℝ) : ℝ := if v < a then a else if v > b then b else v

/-- Embedding of `growth(u, mu, sigma)` (identical in the sparse engine and the
FFT engine): `if sigma <= 0 { return 0 }; return 2*exp(-((u-mu)*(u-mu))/(2*sigma*sigma)) - 1`. -/
noncomputable def growth (u mu sigma : ℝ) : ℝ :=
  if sigma ≤ 0 then 0 else 2 * Real.exp (-((u - mu) * (u - mu)) / (2 * sigma * sigma)) - 1

/-- The shell width constant `shellSigma := 0.15`, hard-coded identically in both
kernel builders. -/
def shellSigma : ℝ := 0.15

/-- Euclidean offset length `math.Hypot(float64(dx), float64(dy))`. -/
noncomputable def distR (dx dy : ℤ) : ℝ := Real.sqrt ((dx : ℝ) ^ 2 + (dy : ℝ) ^ 2)

/-- Raw (pre-normalization) kernel weight of the ring kernel at offset `(dx, dy)`:
weight `exp(-0.5*((dist/R - 0.5)/ss)^2)` when `dist ≤ R`, and `0` otherwise — an
offset outside the radius is skipped by `buildKernel` and carries no weight.
The shell width `ss` is a parameter here; both Go builders instantiate it with
`shellSigma = 0.15`. -/
noncomputable def kernelRawW (R ss : ℝ) (dx dy : ℤ) : ℝ :=
  if distR dx dy ≤ R then Real.exp (-0.5 * ((distR dx dy / R - 0.5) / ss) ^ 2) else 0

/-- The square of offsets `(dy, dx)` scanned by `buildKernel` of the sparse
engine: `Ri := int(math.Ceil(R))`, `dy, dx ∈ [-Ri, Ri]`. -/
noncomputable def offsetsK (R : ℝ) : Finset (ℤ × ℤ) :=
  Finset.Icc (-⌈R⌉) ⌈R⌉ ×ˢ Finset.Icc (-⌈R⌉) ⌈R⌉

/-- Total raw weight `sum` accumulated by `buildKernel` over all in-radius
offsets. -/
noncomputable def kernelSum (R ss : ℝ) : ℝ := ∑ p ∈ offsetsK R, kernelRawW R ss p.2 p.1

/-- Normalized kernel weight: `entries[i].w /= sum` in `buildKernel`. -/
noncomputable def kernelW (R ss : ℝ) (dx dy : ℤ) : ℝ := kernelRawW R ss dx dy / kernelSum R ss

/-- Direct-strategy activity field on a `W × H` toroidal grid: for each kernel
entry, `nx := wrap(x+k.dx, gridW)`, `ny := wrap(y+k.dy, gridH)`,
`u += k.w * A[ny][nx]`.  A pair `p` is the entry offset `(dy, dx)`. -/
noncomputable def Udir (W H : ℤ) (R ss : ℝ) (A : Buf) (y x : ℤ) : ℝ :=
  ∑ p ∈ offsetsK R, kernelW R ss p.2 p.1 * A (wrap (y + p.1) H) (wrap (x + p.2) W)

/-- Grid width `gridW = 240` of the sparse engine. -/
def gridW0 : ℤ := 240

/-- Grid height `gridH = 160` of the sparse engine. -/
def gridH0 : ℤ := 160

/-- Pointwise overwrite of one cell of a buffer: the model of the Go array
write `B[y][x] = v`. -/
def updateBuf (B : Buf) (y x : ℤ) (v : ℝ) : Buf :=
  fun y1 x1 => if y1 = y ∧ x1 = x then v else B y1 x1

/-- The double loop `for y ...; for x ...` writing one cell of the scratch
buffer per iteration, in row-major order: after `k` iterations the cells of
index `< k` (cell `(y, x)` has row-major index `y*W + x`) hold the freshly
computed value `f y x` and every other cell still holds its old `dst` value. -/
noncomputable def writeCells (W : ℕ) (f : ℤ → ℤ → ℝ) (dst : Buf) : ℕ → Buf
  | 0 => dst
  | k + 1 =>
      updateBuf (writeCells W f dst k) ((k / W : ℕ) : ℤ) ((k % W : ℕ) : ℤ)
        (f ((k / W : ℕ) : ℤ) ((k % W : ℕ) : ℤ))

/-- State of the sparse engine `Game`: current buffer `A`, scratch buffer
`Anext`, growth parameters `dt`, `mu`, `sigma`, and the radius `R` from which
`g.kernel` was built (the Go struct stores the kernel entry list itself;
`buildKernel` is a pure function of `R`, so storing `R` is equivalent). -/
structure Game0 where
  A : Buf
  Anext : Buf
  dt : ℝ
  mu : ℝ
  sigma : ℝ
  R : ℝ

/-- Value written into one scratch cell by the sparse engine tick:
`val := g.A[y][x] + g.dt*growth(u, g.mu, g.sigma); g.Anext[y][x] = clamp(val, 0, 1)`. -/
noncomputable def cellVal0 (g : Game0) (y x : ℤ) : ℝ :=
  clamp (g.A y x + g.dt * growth (Udir gridW0 gridH0 g.R shellSigma g.A y x) g.mu g.sigma) 0 1

/-- Embedding of the sparse engine `(*Game).step`: fill every cell of the
scratch buffer from the (unmodified) current buffer, then swap the two buffer
roles (`g.A, g.Anext = g.Anext, g.A`). -/
noncomputable def step0 (g : Game0) : Game0 :=
  { g with A := writeCells 240 (cellVal0 g) g.Anext (160 * 240), Anext := g.A }

/-- Field-level form of one sparse-engine tick (what `step` computes into the
scratch buffer, as a function of the old field). -/
noncomputable def stepA0 (R mu sigma dt : ℝ) (A : Buf) : Buf :=
  fun y x => clamp (A y x + dt * growth (Udir gridW0 gridH0 R shellSigma A y x) mu sigma) 0 1

/-- Toroidal cyclic shift of a field by `(dx0, dy0)` on the sparse engine's
240×160 grid: cell `(y, x)` of the shifted field holds the old cell
`(wrap (y - dy0), wrap (x - dx0))`, so the content moves by `+(dx0, dy0)`. -/
def shiftBuf (A : Buf) (dx0 dy0 : ℤ) : Buf :=
  fun y x => A (wrap (y - dy0) gridH0) (wrap (x - dx0) gridW0)

-- ---------------------------------------------------------------------------
-- Basic lemmas about wrap, clamp and growth
-- ---------------------------------------------------------------------------

/-- Truncated remainder of a negated dividend. -/
lemma Int.neg_tmod (a b : ℤ) : Int.tmod (-a) b = -Int.tmod a b := by
  rw [Int.tmod_def, Int.tmod_def, Int.neg_tdiv]
  ring

/-- For a positive modulus, `wrap` agrees with the Euclidean remainder. -/
lemma wrap_eq_emod (x m : ℤ) (hm : 0 < m) : wrap x m = x % m := by
  unfold wrap
  split
  · exact Int.tmod_eq_emod ‹0 ≤ x› hm.le
  · have h1 : 0 ≤ Int.tmod (-x) m := Int.tmod_nonneg m (by omega)
    have h2 : Int.tmod (-x) m < m := Int.tmod_lt_of_pos (-x) hm
    have h3 : Int.tmod x m = -Int.tmod (-x) m := by
      rw [Int.neg_tmod, neg_neg]
    have h4 : 0 ≤ Int.tmod x m + m := by omega
    rw [Int.tmod_eq_emod h4 hm.le, Int.add_emod_self, Int.tmod_def, sub_eq_add_neg,
      neg_mul_eq_mul_neg]
    exact Int.add_mul_emod_self_left x m (-x.tdiv m)

/-- Clamping to `[a, b]` with `a ≤ b` lands in `[a, b]`. -/
lemma clamp_mem (v a b : ℝ) (hab : a ≤ b) : a ≤ clamp v a b ∧ clamp v a b ≤ b := by
  unfold clamp
  split
  · exact ⟨le_refl a, hab⟩
  · split
    · exact ⟨hab, le_refl b⟩
    · constructor <;> linarith [not_lt.mp ‹¬v < a›, not_lt.mp ‹¬v > b›]

-- ---------------------------------------------------------------------------
-- FFT engine with Lorenz modulation (lenia_lorenz.go)
-- ---------------------------------------------------------------------------

/-- Chaotic driver state: `(x, y, z)` plus the fixed coefficients
`(sigma, rho, b)` and the driver's own internal step size `dt`. -/
structure Lorenz where
  x : ℝ
  y : ℝ
  z : ℝ
  sigma : ℝ
  rho : ℝ
  b : ℝ
  dt : ℝ

/-- Embedding of `NewLorenz`: `{x: 0.1, y: 0, z: 0, sigma: 10, rho: 28, b: 8.0/3.0, dt: 0.01}`. -/
noncomputable def NewLorenz : Lorenz :=
  { x := 0.1, y := 0, z := 0, sigma := 10, rho := 28, b := 8.0 / 3.0, dt := 0.01 }

/-- Embedding of `(*Lorenz).Step`: the increments `dx := sigma*(y-x)`,
`dy := x*(rho-z) - y`, `dz := x*y - b*z` are all computed from the old state
before any component is updated, then `x += dx*dt` and so on — one explicit
Euler step with the driver's own step size `l.dt`. -/
noncomputable def lorenzStep (l : Lorenz) : Lorenz :=
  { l with
    x := l.x + l.sigma * (l.y - l.x) * l.dt
    y := l.y + (l.x * (l.rho - l.z) - l.y) * l.dt
    z := l.z + (l.x * l.y - l.b * l.z) * l.dt }

/-- The `Genome` of the FFT engine: growth parameters plus the render-only
color bias. -/
structure Genome where
  Mu : ℝ
  Sigma : ℝ
  Dt : ℝ
  ColorBias : ℝ

/-- State of the FFT engine `Game`: field buffers, genome and chaotic driver.
The Go struct additionally caches `fft2d` plans and the pre-transformed
kernel coefficients; those cache exactly the dense kernel built from radius 6
(see `denseKernel` and `Ufft`), so they carry no further state. -/
structure Game1 where
  A : Buf
  Anext : Buf
  genome : Genome
  lorenz : Lorenz

/-- Dense kernel array built by the FFT engine's `buildKernel R` on the
128×128 grid: for cell `(y, x)`, with center `cx = cy = 64`,
`dx := x - cx`, `dy := y - cy`, `dist := hypot(dx, dy)`; if `dist ≤ R` the
cell holds `exp(-0.5*((dist/R - 0.5)/0.15)^2)`, otherwise `0` — exactly the
raw ring weight `kernelRawW R shellSigma dx dy` at the center-relative offset.
Note the mass sits around the array center and is never normalized. -/
noncomputable def denseKernel (R : ℝ) (y x : ℤ) : ℝ :=
  kernelRawW R shellSigma (x - 64) (y - 64)

/-- The 128×128 grid cells `(y, x)` scanned row-major by the FFT engine. -/
def gridCells1 : Finset (ℤ × ℤ) := Finset.Icc (0 : ℤ) 127 ×ˢ Finset.Icc (0 : ℤ) 127

/-- Modelled from the spec: the transform-strategy activity field.  The Go
step calls the external gonum FFT library (not part of this repository):
`stateFFT := fft2d.Coefficients(nil, flatten(g.A))`, multiplies elementwise by
the cached `kernelFFT`, and inverse-transforms (`Sequence`), taking the real
part (`reshape`).  Per the spec, "transform-domain multiplication realizes
*cyclic* convolution", so the pipeline computes the cyclic convolution of the
field with the dense kernel array over the 128×128 torus:
`U[y][x] = Σ_(ky,kx) kernel[ky][kx] * A[(y-ky) mod 128][(x-kx) mod 128]`. -/
noncomputable def Ufft (R : ℝ) (A : Buf) (y x : ℤ) : ℝ :=
  ∑ p ∈ gridCells1, denseKernel R p.1 p.2 * A ((y - p.1) % 128) ((x - p.2) % 128)

/-- Value written into one scratch cell of the FFT engine tick, from the
already-modulated genome values:
`grow := growth(u, g.genome.Mu, g.genome.Sigma); val := g.A[y][x] + g.genome.Dt*grow;`
`g.Anext[y][x] = clamp(val, 0, 1)`. -/
noncomputable def cellVal1 (A : Buf) (mu sg dt : ℝ) (y x : ℤ) : ℝ :=
  clamp (A y x + dt * growth (Ufft 6 A y x) mu sg) 0 1

/-- Embedding of the FFT engine's `(*Game).step`: compute `U` from the current
field by FFT convolution (with the kernel cached from `buildKernel(6)`),
advance the Lorenz driver one step, modulate the genome from the new driver
state (`Mu = clamp(Mu + 0.002*tanh(x/20), 0.01, 1.0)`,
`Sigma = clamp(Sigma*(1 + 0.001*y), 0.001, 1.0)`, `ColorBias = tanh(z/30)`),
rewrite every grid cell of the scratch buffer, then swap the buffers. -/
noncomputable def step1 (g : Game1) : Game1 :=
  let l := lorenzStep g.lorenz
  let mu := clamp (g.genome.Mu + 0.002 * Real.tanh (l.x / 20)) 0.01 1.0
  let sg := clamp (g.genome.Sigma * (1 + 0.001 * l.y)) 0.001 1.0
  { A := writeCells 128 (cellVal1 g.A mu sg g.genome.Dt) g.Anext (128 * 128)
    Anext := g.A
    genome := { Mu := mu, Sigma := sg, Dt := g.genome.Dt, ColorBias := Real.tanh (l.z / 30) }
    lorenz := l }

/-- Centered blob written by the FFT engine's `NewGame` before the random
perturbation: `d := hypot(x-cx, y-cy); if d < 12 { A[y][x] = 0.9*exp(-d*d/(2*6*6)) }`
on a zero-initialized array. -/
noncomputable def blobVal1 (y x : ℤ) : ℝ :=
  if distR (x - 64) (y - 64) < 12 then
    0.9 * Real.exp (-(distR (x - 64) (y - 64) * distR (x - 64) (y - 64)) / (2 * 6 * 6))
  else 0

/-- Stream-passing embedding of the `NewGame` field initialization loop.  The
Go code consumes the process-global `math/rand` source (reseeded from the wall
clock by `rand.Seed(time.Now().UnixNano())`); here the consumed stream is the
explicit argument `rnd` and the second component is the stream position.  Per
cell, in row-major order: the blob value is placed, then one draw decides
`if rand.Float64() < 0.002`, and on success a second draw overwrites the cell
with `rand.Float64()`. -/
noncomputable def initCells1 (rnd : ℕ → ℝ) : ℕ → Buf × ℕ
  | 0 => (fun _ _ => 0, 0)
  | k + 1 =>
      let s := initCells1 rnd k
      if rnd s.2 < 0.002 then
        (updateBuf s.1 ((k / 128 : ℕ) : ℤ) ((k % 128 : ℕ) : ℤ) (rnd (s.2 + 1)), s.2 + 2)
      else
        (updateBuf s.1 ((k / 128 : ℕ) : ℤ) ((k % 128 : ℕ) : ℤ)
          (blobVal1 ((k / 128 : ℕ) : ℤ) ((k % 128 : ℕ) : ℤ)), s.2 + 1)

/-- The initial field produced by `NewGame` as a function of the consumed
random stream. -/
noncomputable def initField1 (rnd : ℕ → ℝ) : Buf := (initCells1 rnd (128 * 128)).1

-- ---------------------------------------------------------------------------
-- Lenia2.main.go: fixed-parameter direct engine on a 256×256 grid
-- ---------------------------------------------------------------------------

/-- Lenia2 kernel parameters: `R = 7.0`, `sigmaK = 3.14159`, and growth
parameters `muG = sigmaG = 3.14159`, `dt = 0.00618033`. -/
def sigmaK : ℝ := 3.14159

/-- Growth center `muG` of Lenia2. -/
def muG : ℝ := 3.14159

/-- Growth width `sigmaG` of Lenia2. -/
def sigmaG : ℝ := 3.14159

/-- Integration step `dt` of Lenia2. -/
def dtL : ℝ := 0.00618033

/-- Embedding of Lenia2's `kernel(dx, dy)`:
`r := sqrt(dx*dx + dy*dy); if r > R { return 0 }; return exp(-r*r/(2*sigmaK*sigmaK))`. -/
noncomputable def kernelL (dx dy : ℤ) : ℝ :=
  if distR dx dy > 7.0 then 0
  else Real.exp (-(distR dx dy * distR dx dy) / (2 * sigmaK * sigmaK))

/-- Embedding of Lenia2's `growth(S)`:
`2.0*exp(-(S-muG)^2/(2*sigmaG^2)) - 1.0` (no zero branch; `sigmaG` is a
positive compile-time constant). -/
noncomputable def growthL (S : ℝ) : ℝ :=
  2.0 * Real.exp (-(S - muG) ^ 2 / (2 * sigmaG ^ 2)) - 1.0

/-- Lenia2 activity sum at cell `(j, i)`: offsets `dy, dx ∈ [-RConv, RConv]`
with `RConv = int(R) = 7`, toroidal indices `ni := (i+dx+width) % width`,
`nj := (j+dy+height) % height` (Go truncated `%`), accumulating
`field[nj][ni] * kernel(dx, dy)`. -/
noncomputable def UL (A : Buf) (j i : ℤ) : ℝ :=
  ∑ p ∈ Finset.Icc (-7 : ℤ) 7 ×ˢ Finset.Icc (-7 : ℤ) 7,
    A (Int.tmod (j + p.1 + 256) 256) (Int.tmod (i + p.2 + 256) 256) * kernelL p.2 p.1

/-- Value written into one cell of Lenia2's fresh `next` array:
`val := field[j][i] + dt*growth(sum)`, then clamped to `[0, 1]` by the two
inline comparisons. -/
noncomputable def cellValL (A : Buf) (j i : ℤ) : ℝ :=
  clamp (A j i + dtL * growthL (UL A j i)) 0 1

/-- Embedding of Lenia2's `updateField`: a zero-valued fresh `next` array is
filled cell by cell from the unmodified `field`, and only then does
`field = next` install it. -/
noncomputable def stepL (A : Buf) : Buf :=
  writeCells 256 (cellValL A) (fun _ _ => 0) (256 * 256)

-- ---------------------------------------------------------------------------
-- The cell-writing loop writes every grid cell from the source buffer
-- ---------------------------------------------------------------------------

/-- After the full row-major loop has passed a cell, that cell of the scratch
buffer holds the per-cell value computed from the source buffer. -/
lemma writeCells_get (W : ℕ) (hW : 0 < W) (f : ℤ → ℤ → ℝ) (dst : Buf) :
    ∀ (k : ℕ) (y x : ℕ), x < W → y * W + x < k →
      writeCells W f dst k (y : ℤ) (x : ℤ) = f y x := by
  intro k
  induction k with
  | zero => intro y x hx hk; omega
  | succ k ih =>
      intro y x hx hk
      simp only [writeCells, updateBuf]
      by_cases h : ((y : ℤ) = ((k / W : ℕ) : ℤ) ∧ (x : ℤ) = ((k % W : ℕ) : ℤ))
      · rw [if_pos h, ← h.1, ← h.2]
      · rw [if_neg h]
        have e1 : (y * W + x) / W = y := by
          rw [mul_comm, Nat.mul_add_div hW, Nat.div_eq_of_lt hx, add_zero]
        have e2 : (y * W + x) % W = x := by
          rw [mul_comm, Nat.mul_add_mod, Nat.mod_eq_of_lt hx]
        have hne : y * W + x ≠ k := by
          intro hEq
          apply h
          rw [← hEq, e1, e2]
          exact ⟨rfl, rfl⟩
        exact ih y x hx (by omega)

-- ---------------------------------------------------------------------------
-- Kernel positivity and normalization
-- ---------------------------------------------------------------------------

/-- Every raw kernel weight is nonnegative. -/
lemma kernelRawW_nonneg (R ss : ℝ) (dx dy : ℤ) : 0 ≤ kernelRawW R ss dx dy := by
  unfold kernelRawW
  split
  · exact (Real.exp_pos _).le
  · exact le_refl 0

/-- The zero offset has distance zero. -/
lemma distR_zero : distR 0 0 = 0 := by
  unfold distR
  norm_num

/-- For a positive radius, the center offset carries a positive raw weight. -/
lemma kernelRawW_center_pos (R ss : ℝ) (hR : 0 < R) : 0 < kernelRawW R ss 0 0 := by
  unfold kernelRawW
  rw [if_pos (by rw [distR_zero]; exact hR.le)]
  exact Real.exp_pos _

/-- For a positive radius, the center offset is scanned by `buildKernel`. -/
lemma center_mem_offsetsK (R : ℝ) (hR : 0 < R) : ((0, 0) : ℤ × ℤ) ∈ offsetsK R := by
  have h : 0 < ⌈R⌉ := Int.ceil_pos.mpr hR
  simp only [offsetsK, Finset.mem_product, Finset.mem_Icc]
  omega

/-- For a positive radius, the accumulated raw weight is positive. -/
lemma kernelSum_pos (R ss : ℝ) (hR : 0 < R) : 0 < kernelSum R ss :=
  Finset.sum_pos' (fun p _ => kernelRawW_nonneg R ss p.2 p.1)
    ⟨(0, 0), center_mem_offsetsK R hR, kernelRawW_center_pos R ss hR⟩

/-- C2 (amended part): for every radius `R > 0` and shell width `ss > 0`, the
normalized weights produced by the sparse engine's `buildKernel` sum to
exactly 1 — in particular to 1 within `1e-9`. -/
theorem kernel_weights_sum_to_one (R ss : ℝ) (hR : 0 < R) (hss : 0 < ss) :
    (∑ p ∈ offsetsK R, kernelW R ss p.2 p.1) = 1 ∧
    |(∑ p ∈ offsetsK R, kernelW R ss p.2 p.1) - 1| ≤ 1e-9 := by
  have hs := kernelSum_pos R ss hR
  have h1 : (∑ p ∈ offsetsK R, kernelW R ss p.2 p.1) = 1 := by
    unfold kernelW
    rw [← Finset.sum_div]
    exact div_self (ne_of_gt hs)
  refine ⟨h1, ?_⟩
  rw [h1]
  norm_num

/-- C2 witness: at the engine's actual parameters `R = 6`, `ss = 0.15`, the
hypotheses hold and the sparse kernel weights sum to 1. -/
theorem kernel_weights_sum_to_one_witness :
    (0 : ℝ) < 6 ∧ (0 : ℝ) < 0.15 ∧ (∑ p ∈ offsetsK 6, kernelW 6 0.15 p.2 p.1) = 1 :=
  ⟨by norm_num, by norm_num,
    (kernel_weights_sum_to_one 6 0.15 (by norm_num) (by norm_num)).1⟩

/-- Distance of offset `(3, 0)`. -/
lemma distR_three_zero : distR 3 0 = 3 := by
  unfold distR
  rw [show (((3 : ℤ) : ℝ) ^ 2 + ((0 : ℤ) : ℝ) ^ 2) = 3 ^ 2 by push_cast; norm_num]
  exact Real.sqrt_sq (by norm_num)

/-- Distance of offset `(-3, 0)`. -/
lemma distR_neg_three_zero : distR (-3) 0 = 3 := by
  unfold distR
  rw [show ((((-3) : ℤ) : ℝ) ^ 2 + ((0 : ℤ) : ℝ) ^ 2) = 3 ^ 2 by push_cast; norm_num]
  exact Real.sqrt_sq (by norm_num)

/-- At radius 6, an offset at distance 3 sits exactly on the shell peak
(`dist/R = 0.5`), so its raw weight is `exp 0 = 1`. -/
lemma kernelRawW_of_dist_three (dx dy : ℤ) (h : distR dx dy = 3) :
    kernelRawW 6 shellSigma dx dy = 1 := by
  unfold kernelRawW
  rw [h, if_pos (by norm_num)]
  rw [show (-0.5 * ((3 / (6 : ℝ) - 0.5) / shellSigma) ^ 2) = 0 by unfold shellSigma; norm_num]
  exact Real.exp_zero

/-- Every dense kernel cell is nonnegative. -/
lemma denseKernel_nonneg (R : ℝ) (y x : ℤ) : 0 ≤ denseKernel R y x := by
  unfold denseKernel
  exact kernelRawW_nonneg R shellSigma (x - 64) (y - 64)

/-- C2 counterexample: the dense kernel array built by the FFT engine's
`buildKernel 6` is not normalized — its entries sum to at least 2 (the four
shell-peak cells alone, e.g. `(64, 67)` and `(64, 61)`, each carry weight 1),
so the total is not within `1e-9` of 1. -/
theorem dense_kernel_sum_not_one :
    2 ≤ (∑ p ∈ gridCells1, denseKernel 6 p.1 p.2) ∧
    ¬ |(∑ p ∈ gridCells1, denseKernel 6 p.1 p.2) - 1| ≤ 1e-9 := by
  have e1 : denseKernel 6 64 67 = 1 := by
    unfold denseKernel
    rw [show (67 : ℤ) - 64 = 3 by norm_num, show (64 : ℤ) - 64 = 0 by norm_num]
    exact kernelRawW_of_dist_three 3 0 distR_three_zero
  have e2 : denseKernel 6 64 61 = 1 := by
    unfold denseKernel
    rw [show (61 : ℤ) - 64 = -3 by norm_num, show (64 : ℤ) - 64 = 0 by norm_num]
    exact kernelRawW_of_dist_three (-3) 0 distR_neg_three_zero
  have hmem1 : ((64, 67) : ℤ × ℤ) ∈ gridCells1 := by
    unfold gridCells1
    rw [Finset.mem_product]
    constructor <;> rw [Finset.mem_Icc] <;> omega
  have hmem2 : ((64, 61) : ℤ × ℤ) ∈ gridCells1 := by
    unfold gridCells1
    rw [Finset.mem_product]
    constructor <;> rw [Finset.mem_Icc] <;> omega
  have hne2 : ((64, 67) : ℤ × ℤ) ≠ (64, 61) := by
    intro hEq
    have h67 : (67 : ℤ) = 61 := congrArg Prod.snd hEq
    omega
  have hsub : ({(64, 67), (64, 61)} : Finset (ℤ × ℤ)) ⊆ gridCells1 := by
    intro p hp
    rcases Finset.mem_insert.mp hp with h | h
    · rw [h]; exact hmem1
    · rw [Finset.mem_singleton.mp h]; exact hmem2
  have hpair : (∑ p ∈ ({(64, 67), (64, 61)} : Finset (ℤ × ℤ)), denseKernel 6 p.1 p.2) =
      denseKernel 6 64 67 + denseKernel 6 64 61 := by
    rw [Finset.sum_pair hne2]
  have hmono : (∑ p ∈ ({(64, 67), (64, 61)} : Finset (ℤ × ℤ)), denseKernel 6 p.1 p.2) ≤
      ∑ p ∈ gridCells1, denseKernel 6 p.1 p.2 := by
    apply Finset.sum_le_sum_of_subset_of_nonneg hsub
    intro p h1 h2
    exact denseKernel_nonneg 6 p.1 p.2
  have hge : 2 ≤ ∑ p ∈ gridCells1, denseKernel 6 p.1 p.2 := by
    rw [hpair, e1, e2] at hmono
    linarith
  refine ⟨hge, fun habs => ?_⟩
  rw [abs_le] at habs
  have := habs.2
  norm_num at this
  linarith

/-- C5: the growth function returns 0 whenever `sigma ≤ 0`; for `sigma > 0` it
equals `2*exp(-(u-mu)^2/(2*sigma^2)) - 1`, lies in `[-1, 1]`, and attains the
value 1 exactly at `u = mu` (its unique maximum). -/
theorem growth_spec (u mu sigma : ℝ) :
    (sigma ≤ 0 → growth u mu sigma = 0) ∧
    (0 < sigma →
      growth u mu sigma = 2 * Real.exp (-(u - mu) ^ 2 / (2 * sigma ^ 2)) - 1 ∧
      -1 ≤ growth u mu sigma ∧ growth u mu sigma ≤ 1 ∧
      (growth u mu sigma = 1 ↔ u = mu)) := by
  constructor
  · intro h
    unfold growth
    rw [if_pos h]
  · intro h
    have hns : ¬sigma ≤ 0 := not_le.mpr h
    have hgd : growth u mu sigma = 2 * Real.exp (-(u - mu) ^ 2 / (2 * sigma ^ 2)) - 1 := by
      unfold growth
      rw [if_neg hns,
        show -((u - mu) * (u - mu)) / (2 * sigma * sigma) = -(u - mu) ^ 2 / (2 * sigma ^ 2) by
          ring]
    have hden : (0 : ℝ) < 2 * sigma ^ 2 := by positivity
    have hEle : -(u - mu) ^ 2 / (2 * sigma ^ 2) ≤ 0 := by
      apply div_nonpos_of_nonpos_of_nonneg
      · simp [sq_nonneg]
      · exact hden.le
    have hexp1 : Real.exp (-(u - mu) ^ 2 / (2 * sigma ^ 2)) ≤ 1 :=
      Real.exp_le_one_iff.mpr hEle
    have hexp0 : 0 < Real.exp (-(u - mu) ^ 2 / (2 * sigma ^ 2)) := Real.exp_pos _
    refine ⟨hgd, by rw [hgd]; linarith, by rw [hgd]; linarith, ?_⟩
    rw [hgd]
    constructor
    · intro h1
      have h2 : Real.exp (-(u - mu) ^ 2 / (2 * sigma ^ 2)) = 1 := by linarith
      have h3 : -(u - mu) ^ 2 / (2 * sigma ^ 2) = 0 := by simpa using h2
      have h4 : -(u - mu) ^ 2 = 0 := by
        rcases div_eq_zero_iff.mp h3 with h5 | h5
        · exact h5
        · exact absurd h5 (ne_of_gt hden)
      have h6 : u - mu = 0 := by
        have := sq_eq_zero_iff.mp (by linarith : (u - mu) ^ 2 = 0)
        exact this
      linarith
    · intro h1
      subst h1
      norm_num [Real.exp_zero]

/-- C5 witness: at `sigma = -1` the degenerate branch returns 0, and at the
engine defaults `mu = 0.3`, `sigma = 0.06` the growth attains 1 at `u = mu`. -/
theorem growth_spec_witness :
    growth 1 1 (-1) = 0 ∧ growth 0.3 0.3 0.06 = 1 :=
  ⟨(growth_spec 1 1 (-1)).1 (by norm_num),
    ((growth_spec 0.3 0.3 0.06).2 (by norm_num)).2.2.2.mpr rfl⟩

-- ---------------------------------------------------------------------------
-- What one tick writes into the grid
-- ---------------------------------------------------------------------------

/-- Each grid cell of the buffer produced by a sparse-engine tick holds the
per-cell update value computed from the old current buffer. -/
lemma step0_A (g : Game0) (y x : ℤ) (hy1 : 0 ≤ y) (hy2 : y < 160) (hx1 : 0 ≤ x)
    (hx2 : x < 240) : (step0 g).A y x = cellVal0 g y x := by
  show writeCells 240 (cellVal0 g) g.Anext (160 * 240) y x = cellVal0 g y x
  rw [← Int.toNat_of_nonneg hy1, ← Int.toNat_of_nonneg hx1]
  exact writeCells_get 240 (by norm_num) (cellVal0 g) g.Anext (160 * 240) y.toNat x.toNat
    (by omega) (by omega)

/-- Each grid cell of the buffer produced by an FFT-engine tick holds the
per-cell update value, computed from the old current buffer with the freshly
modulated genome. -/
lemma step1_A (g : Game1) (y x : ℤ) (hy1 : 0 ≤ y) (hy2 : y < 128) (hx1 : 0 ≤ x)
    (hx2 : x < 128) :
    (step1 g).A y x =
      cellVal1 g.A
        (clamp (g.genome.Mu + 0.002 * Real.tanh ((lorenzStep g.lorenz).x / 20)) 0.01 1.0)
        (clamp (g.genome.Sigma * (1 + 0.001 * (lorenzStep g.lorenz).y)) 0.001 1.0)
        g.genome.Dt y x := by
  have h := writeCells_get 128 (by norm_num)
    (cellVal1 g.A
      (clamp (g.genome.Mu + 0.002 * Real.tanh ((lorenzStep g.lorenz).x / 20)) 0.01 1.0)
      (clamp (g.genome.Sigma * (1 + 0.001 * (lorenzStep g.lorenz).y)) 0.001 1.0)
      g.genome.Dt)
    g.Anext (128 * 128) y.toNat x.toNat (by omega) (by omega)
  rw [← Int.toNat_of_nonneg hy1, ← Int.toNat_of_nonneg hx1]
  exact h

/-- Each grid cell produced by Lenia2's `updateField` holds the per-cell
update value computed from the old field. -/
lemma stepL_get (A : Buf) (j i : ℤ) (hj1 : 0 ≤ j) (hj2 : j < 256) (hi1 : 0 ≤ i)
    (hi2 : i < 256) : stepL A j i = cellValL A j i := by
  show writeCells 256 (cellValL A) (fun _ _ => 0) (256 * 256) j i = cellValL A j i
  rw [← Int.toNat_of_nonneg hj1, ← Int.toNat_of_nonneg hi1]
  exact writeCells_get 256 (by norm_num) (cellValL A) (fun _ _ => 0) (256 * 256)
    j.toNat i.toNat (by omega) (by omega)

/-- C3: for every start state whose grid cells lie in `[0, 1]` and every tick
count `n ≥ 0`, all grid cells still lie in `[0, 1]` after `n` ticks — for the
sparse engine and for the FFT engine alike: every tick clamps every written
cell to `[0, 1]`, so the invariant survives arbitrarily long runs. -/
theorem field_stays_in_unit_interval :
    (∀ (g : Game0) (n : ℕ),
      (∀ y x : ℤ, 0 ≤ y → y < 160 → 0 ≤ x → x < 240 → 0 ≤ g.A y x ∧ g.A y x ≤ 1) →
      ∀ y x : ℤ, 0 ≤ y → y < 160 → 0 ≤ x → x < 240 →
        0 ≤ (step0^[n] g).A y x ∧ (step0^[n] g).A y x ≤ 1) ∧
    (∀ (g : Game1) (n : ℕ),
      (∀ y x : ℤ, 0 ≤ y → y < 128 → 0 ≤ x → x < 128 → 0 ≤ g.A y x ∧ g.A y x ≤ 1) →
      ∀ y x : ℤ, 0 ≤ y → y < 128 → 0 ≤ x → x < 128 →
        0 ≤ (step1^[n] g).A y x ∧ (step1^[n] g).A y x ≤ 1) := by
  constructor
  · intro g n h y x hy1 hy2 hx1 hx2
    cases n with
    | zero => exact h y x hy1 hy2 hx1 hx2
    | succ n =>
        rw [Function.iterate_succ_apply']
        rw [step0_A (step0^[n] g) y x hy1 hy2 hx1 hx2]
        exact clamp_mem _ 0 1 (by norm_num)
  · intro g n h y x hy1 hy2 hx1 hx2
    cases n with
    | zero => exact h y x hy1 hy2 hx1 hx2
    | succ n =>
        rw [Function.iterate_succ_apply']
        rw [step1_A (step1^[n] g) y x hy1 hy2 hx1 hx2]
        exact clamp_mem _ 0 1 (by norm_num)

/-- Concrete sparse-engine state for witnesses: zero field, the engine's
default parameters (`dt = 0.08`, `mu = 0.30`, `sigma = 0.06`, `R = 6`). -/
noncomputable def zeroGame0 : Game0 :=
  { A := fun _ _ => 0, Anext := fun _ _ => 0, dt := 0.08, mu := 0.30, sigma := 0.06, R := 6 }

/-- Concrete FFT-engine state for witnesses: zero field with the genome and
driver that `NewGame` installs. -/
noncomputable def initGame1 : Game1 :=
  { A := fun _ _ => 0, Anext := fun _ _ => 0,
    genome := { Mu := 0.3, Sigma := 0.06, Dt := 0.08, ColorBias := 0 }, lorenz := NewLorenz }

/-- C3 witness: the zero field is in range, and after 2 ticks of either engine
the cell (0,0) is still in `[0, 1]`. -/
theorem field_stays_in_unit_interval_witness :
    (∀ y x : ℤ, 0 ≤ y → y < 160 → 0 ≤ x → x < 240 →
      0 ≤ zeroGame0.A y x ∧ zeroGame0.A y x ≤ 1) ∧
    (0 ≤ (step0^[2] zeroGame0).A 0 0 ∧ (step0^[2] zeroGame0).A 0 0 ≤ 1) ∧
    (∀ y x : ℤ, 0 ≤ y → y < 128 → 0 ≤ x → x < 128 →
      0 ≤ initGame1.A y x ∧ initGame1.A y x ≤ 1) ∧
    (0 ≤ (step1^[2] initGame1).A 0 0 ∧ (step1^[2] initGame1).A 0 0 ≤ 1) := by
  have h0 : ∀ y x : ℤ, 0 ≤ y → y < 160 → 0 ≤ x → x < 240 →
      0 ≤ zeroGame0.A y x ∧ zeroGame0.A y x ≤ 1 := by
    intro y x _ _ _ _
    norm_num [zeroGame0]
  have h1 : ∀ y x : ℤ, 0 ≤ y → y < 128 → 0 ≤ x → x < 128 →
      0 ≤ initGame1.A y x ∧ initGame1.A y x ≤ 1 := by
    intro y x _ _ _ _
    norm_num [initGame1]
  exact ⟨h0,
    field_stays_in_unit_interval.1 zeroGame0 2 h0 0 0 (by norm_num) (by norm_num)
      (by norm_num) (by norm_num),
    h1,
    field_stays_in_unit_interval.2 initGame1 2 h1 0 0 (by norm_num) (by norm_num)
      (by norm_num) (by norm_num)⟩

/-- The wrapped direct convolution written with the mathematical modulus. -/
lemma Udir_emod (W H : ℤ) (hW : 0 < W) (hH : 0 < H) (R ss : ℝ) (A : Buf) (y x : ℤ) :
    Udir W H R ss A y x =
      ∑ p ∈ offsetsK R, kernelW R ss p.2 p.1 * A ((y + p.1) % H) ((x + p.2) % W) := by
  unfold Udir
  refine Finset.sum_congr rfl fun p _ => ?_
  rw [wrap_eq_emod _ _ hH, wrap_eq_emod _ _ hW]

/-- C4: one tick of the sparse engine writes, into every grid cell of the
scratch buffer, `clamp(A[y][x] + dt*growth(U[y][x], mu, sigma), 0, 1)` with
`U[y][x] = Σ w·A[(y+dy) mod H][(x+dx) mod W]` over all kernel entries, every
read coming from the unmodified current buffer; the buffers swap roles only
after the whole grid is written, the old current buffer becoming the scratch
buffer.  Lenia2's `updateField` obeys the same contract with its kernel,
growth function and fresh `next` array. -/
theorem step_cell_formula_and_swap :
    (∀ (g : Game0) (y x : ℤ), 0 ≤ y → y < 160 → 0 ≤ x → x < 240 →
      (step0 g).A y x =
        clamp (g.A y x + g.dt *
          growth (∑ p ∈ offsetsK g.R, kernelW g.R shellSigma p.2 p.1 *
            g.A ((y + p.1) % 160) ((x + p.2) % 240)) g.mu g.sigma) 0 1 ∧
      (step0 g).Anext = g.A) ∧
    (∀ (A : Buf) (j i : ℤ), 0 ≤ j → j < 256 → 0 ≤ i → i < 256 →
      stepL A j i =
        clamp (A j i + dtL * growthL
          (∑ p ∈ Finset.Icc (-7 : ℤ) 7 ×ˢ Finset.Icc (-7 : ℤ) 7,
            A ((j + p.1) % 256) ((i + p.2) % 256) * kernelL p.2 p.1)) 0 1) := by
  constructor
  · intro g y x hy1 hy2 hx1 hx2
    refine ⟨?_, rfl⟩
    rw [step0_A g y x hy1 hy2 hx1 hx2]
    unfold cellVal0
    rw [Udir_emod gridW0 gridH0 (by norm_num [gridW0]) (by norm_num [gridH0])]
    simp only [gridW0, gridH0]
  · intro A j i hj1 hj2 hi1 hi2
    rw [stepL_get A j i hj1 hj2 hi1 hi2]
    unfold cellValL
    have hS : UL A j i = ∑ p ∈ Finset.Icc (-7 : ℤ) 7 ×ˢ Finset.Icc (-7 : ℤ) 7,
        A ((j + p.1) % 256) ((i + p.2) % 256) * kernelL p.2 p.1 := by
      unfold UL
      refine Finset.sum_congr rfl fun p hp => ?_
      obtain ⟨hp1, hp2⟩ := Finset.mem_product.mp hp
      rw [Finset.mem_Icc] at hp1 hp2
      have h1 : Int.tmod (j + p.1 + 256) 256 = (j + p.1) % 256 := by
        rw [Int.tmod_eq_emod (by omega) (by norm_num)]
        omega
      have h2 : Int.tmod (i + p.2 + 256) 256 = (i + p.2) % 256 := by
        rw [Int.tmod_eq_emod (by omega) (by norm_num)]
        omega
      rw [h1, h2]
    rw [hS]

/-- C4 witness: the formula and the swap, exercised at cell (0,0) of the
zero-field states of both engines. -/
theorem step_cell_formula_and_swap_witness :
    ((step0 zeroGame0).A 0 0 =
      clamp (zeroGame0.A 0 0 + zeroGame0.dt *
        growth (∑ p ∈ offsetsK zeroGame0.R, kernelW zeroGame0.R shellSigma p.2 p.1 *
          zeroGame0.A ((0 + p.1) % 160) ((0 + p.2) % 240))
          zeroGame0.mu zeroGame0.sigma) 0 1 ∧
      (step0 zeroGame0).Anext = zeroGame0.A) ∧
    stepL (fun _ _ => 0) 0 0 =
      clamp ((fun _ _ => (0 : ℝ)) (0 : ℤ) (0 : ℤ) + dtL * growthL
        (∑ p ∈ Finset.Icc (-7 : ℤ) 7 ×ˢ Finset.Icc (-7 : ℤ) 7,
          (fun _ _ => (0 : ℝ)) ((0 + p.1) % 256) ((0 + p.2) % 256) * kernelL p.2 p.1)) 0 1 :=
  ⟨step_cell_formula_and_swap.1 zeroGame0 0 0 (by norm_num) (by norm_num) (by norm_num)
      (by norm_num),
    step_cell_formula_and_swap.2 (fun _ _ => 0) 0 0 (by norm_num) (by norm_num) (by norm_num)
      (by norm_num)⟩

-- ---------------------------------------------------------------------------
-- Translation equivariance of the sparse engine tick (C6)
-- ---------------------------------------------------------------------------

/-- The wrapped index lies in `[0, m)`. -/
lemma wrap_range (x m : ℤ) (hm : 0 < m) : 0 ≤ wrap x m ∧ wrap x m < m := by
  rw [wrap_eq_emod x m hm]
  exact ⟨Int.emod_nonneg x (by omega), Int.emod_lt_of_pos x hm⟩

/-- Convolving a toroidally shifted field equals convolving the original field
at the shifted (wrapped) cell. -/
lemma Udir_shift (R ss : ℝ) (A : Buf) (dx0 dy0 y x : ℤ) :
    Udir gridW0 gridH0 R ss (shiftBuf A dx0 dy0) y x =
      Udir gridW0 gridH0 R ss A (wrap (y - dy0) gridH0) (wrap (x - dx0) gridW0) := by
  unfold Udir shiftBuf
  refine Finset.sum_congr rfl fun p _ => ?_
  have eH : ∀ z : ℤ, wrap z 160 = z % 160 := fun z => wrap_eq_emod z 160 (by norm_num)
  have eW : ∀ z : ℤ, wrap z 240 = z % 240 := fun z => wrap_eq_emod z 240 (by norm_num)
  simp only [gridH0, gridW0]
  simp only [eH, eW]
  have e1 : ((y + p.1) % 160 - dy0) % 160 = ((y - dy0) % 160 + p.1) % 160 := by omega
  have e2 : ((x + p.2) % 240 - dx0) % 240 = ((x - dx0) % 240 + p.2) % 240 := by omega
  rw [e1, e2]

/-- C6: toroidally shifting the field by `(dx0, dy0)` and then running one
sparse-engine tick gives, on every grid cell, exactly the shift by
`(dx0, dy0)` of the tick of the unshifted field (same kernel and growth
parameters). -/
theorem step_translation_equivariant :
    ∀ (g : Game0) (dx0 dy0 y x : ℤ), 0 ≤ y → y < 160 → 0 ≤ x → x < 240 →
      (step0 { g with A := shiftBuf g.A dx0 dy0 }).A y x =
        shiftBuf (step0 g).A dx0 dy0 y x := by
  intro g dx0 dy0 y x hy1 hy2 hx1 hx2
  have hywr := wrap_range (y - dy0) gridH0 (by norm_num [gridH0])
  have hxwr := wrap_range (x - dx0) gridW0 (by norm_num [gridW0])
  rw [step0_A _ y x hy1 hy2 hx1 hx2]
  show cellVal0 { g with A := shiftBuf g.A dx0 dy0 } y x =
    (step0 g).A (wrap (y - dy0) gridH0) (wrap (x - dx0) gridW0)
  rw [step0_A g (wrap (y - dy0) gridH0) (wrap (x - dx0) gridW0) hywr.1 hywr.2 hxwr.1 hxwr.2]
  unfold cellVal0
  dsimp only
  rw [Udir_shift]
  rfl

-- ---------------------------------------------------------------------------
-- Kernel construction never fails (C7)
-- ---------------------------------------------------------------------------

/-- C7 counterexample: at the invalid radius `R = -1`, where the claim says
kernel construction fails with InvalidParameter, `buildKernel` succeeds and
returns a value: it scans no offsets at all (`Ri = -1` makes the loop bounds
empty) and yields a kernel with zero total mass and zero weights. -/
theorem buildKernel_invalid_radius_returns_value :
    offsetsK (-1) = ∅ ∧ kernelSum (-1) shellSigma = 0 ∧ kernelW (-1) shellSigma 0 0 = 0 := by
  have hceil : ⌈(-1 : ℝ)⌉ = -1 := by
    rw [show (-1 : ℝ) = ((-1 : ℤ) : ℝ) by push_cast; ring]
    exact Int.ceil_intCast (-1)
  have hempty : offsetsK (-1) = ∅ := by
    unfold offsetsK
    rw [hceil, show Finset.Icc (-(-1) : ℤ) (-1) = ∅ from Finset.Icc_eq_empty (by omega)]
    exact Finset.empty_product _
  refine ⟨hempty, ?_, ?_⟩
  · unfold kernelSum
    rw [hempty, Finset.sum_empty]
  · unfold kernelW kernelRawW
    rw [distR_zero, if_neg (by norm_num), zero_div]

/-- C7 (amended): `buildKernel` performs no validation and never fails.  For
every negative radius every raw weight is zero (no offset passes the distance
test), the accumulated mass is zero, and every normalized weight is zero; the
grid dimensions and the kernel radius of the engines are compile-time
constants, so engine creation takes no parameter that could be invalid. -/
theorem negative_radius_yields_empty_kernel (R ss : ℝ) (hR : R < 0) :
    (∀ dx dy : ℤ, kernelRawW R ss dx dy = 0) ∧ kernelSum R ss = 0 ∧
    (∀ dx dy : ℤ, kernelW R ss dx dy = 0) := by
  have hraw : ∀ dx dy : ℤ, kernelRawW R ss dx dy = 0 := by
    intro dx dy
    have hd : ¬distR dx dy ≤ R := by
      unfold distR
      intro hle
      have h0 := Real.sqrt_nonneg ((dx : ℝ) ^ 2 + (dy : ℝ) ^ 2)
      linarith
    unfold kernelRawW
    rw [if_neg hd]
  refine ⟨hraw, ?_, ?_⟩
  · unfold kernelSum
    exact Finset.sum_eq_zero fun p _ => hraw p.2 p.1
  · intro dx dy
    unfold kernelW
    rw [hraw dx dy, zero_div]

/-- C7 witness: the amended statement at the concrete invalid radius `-1`. -/
theorem negative_radius_yields_empty_kernel_witness :
    (-1 : ℝ) < 0 ∧ kernelSum (-1) shellSigma = 0 :=
  ⟨by norm_num, (negative_radius_yields_empty_kernel (-1) shellSigma (by norm_num)).2.1⟩

-- ---------------------------------------------------------------------------
-- The chaotic driver and the parameter modulation (C9, C10)
-- ---------------------------------------------------------------------------

/-- C9: each FFT-engine tick advances the chaotic driver exactly one explicit
Euler step — all three increments computed from the old state with the
driver's own fixed step size, unaffected by the genome's Dt — and then
recomputes the genome as a clamped deterministic function of the new driver
state. -/
theorem lorenz_euler_step_and_modulation (g : Game1) :
    ((step1 g).lorenz.x =
        g.lorenz.x + g.lorenz.dt * (g.lorenz.sigma * (g.lorenz.y - g.lorenz.x)) ∧
      (step1 g).lorenz.y =
        g.lorenz.y + g.lorenz.dt * (g.lorenz.x * (g.lorenz.rho - g.lorenz.z) - g.lorenz.y) ∧
      (step1 g).lorenz.z =
        g.lorenz.z + g.lorenz.dt * (g.lorenz.x * g.lorenz.y - g.lorenz.b * g.lorenz.z)) ∧
    ((step1 g).lorenz.sigma = g.lorenz.sigma ∧ (step1 g).lorenz.rho = g.lorenz.rho ∧
      (step1 g).lorenz.b = g.lorenz.b ∧ (step1 g).lorenz.dt = g.lorenz.dt) ∧
    (∀ d : ℝ, (step1 { g with genome := { g.genome with Dt := d } }).lorenz =
      (step1 g).lorenz) ∧
    ((step1 g).genome.Mu =
        clamp (g.genome.Mu + 0.002 * Real.tanh ((step1 g).lorenz.x / 20)) 0.01 1.0 ∧
      (step1 g).genome.Sigma =
        clamp (g.genome.Sigma * (1 + 0.001 * (step1 g).lorenz.y)) 0.001 1.0 ∧
      (step1 g).genome.Dt = g.genome.Dt ∧
      (step1 g).genome.ColorBias = Real.tanh ((step1 g).lorenz.z / 30)) := by
  refine ⟨⟨?_, ?_, ?_⟩, ⟨rfl, rfl, rfl, rfl⟩, fun d => rfl, ⟨rfl, rfl, rfl, rfl⟩⟩ <;>
    · simp only [step1, lorenzStep]
      ring

/-- C10: while the modulator is active, after every tick (`n ≥ 1`) the genome
satisfies `0.01 ≤ Mu ≤ 1` and `0.001 ≤ Sigma ≤ 1`; in particular `Sigma` is
strictly positive, so the `sigma ≤ 0` zero branch of the growth function is
unreachable: with these parameters `growth` always takes its Gaussian-bump
branch. -/
theorem modulated_params_bounds (g : Game1) (n : ℕ) (hn : 1 ≤ n) :
    0.01 ≤ (step1^[n] g).genome.Mu ∧ (step1^[n] g).genome.Mu ≤ 1 ∧
    0.001 ≤ (step1^[n] g).genome.Sigma ∧ (step1^[n] g).genome.Sigma ≤ 1 ∧
    0 < (step1^[n] g).genome.Sigma ∧
    (∀ u : ℝ, growth u (step1^[n] g).genome.Mu (step1^[n] g).genome.Sigma =
      2 * Real.exp (-((u - (step1^[n] g).genome.Mu) * (u - (step1^[n] g).genome.Mu)) /
        (2 * (step1^[n] g).genome.Sigma * (step1^[n] g).genome.Sigma)) - 1) := by
  obtain ⟨m, rfl⟩ : ∃ m, n = m + 1 := ⟨n - 1, by omega⟩
  rw [Function.iterate_succ_apply']
  have hMu : (step1 (step1^[m] g)).genome.Mu =
      clamp ((step1^[m] g).genome.Mu +
        0.002 * Real.tanh ((lorenzStep (step1^[m] g).lorenz).x / 20)) 0.01 1.0 := rfl
  have hSg : (step1 (step1^[m] g)).genome.Sigma =
      clamp ((step1^[m] g).genome.Sigma *
        (1 + 0.001 * (lorenzStep (step1^[m] g).lorenz).y)) 0.001 1.0 := rfl
  have hM := clamp_mem ((step1^[m] g).genome.Mu +
    0.002 * Real.tanh ((lorenzStep (step1^[m] g).lorenz).x / 20)) 0.01 1.0 (by norm_num)
  have hS := clamp_mem ((step1^[m] g).genome.Sigma *
    (1 + 0.001 * (lorenzStep (step1^[m] g).lorenz).y)) 0.001 1.0 (by norm_num)
  rw [hMu, hSg]
  have hone : (1.0 : ℝ) = 1 := by norm_num
  rw [hone] at hM hS
  have hpos : (0 : ℝ) < clamp ((step1^[m] g).genome.Sigma *
      (1 + 0.001 * (lorenzStep (step1^[m] g).lorenz).y)) 0.001 1 :=
    lt_of_lt_of_le (by norm_num) hS.1
  rw [hone]
  refine ⟨hM.1, hM.2, hS.1, hS.2, hpos, ?_⟩
  intro u
  unfold growth
  rw [if_neg (not_le.mpr hpos)]

/-- C10 witness: the bounds hold after one tick from the initial `NewGame`
state. -/
theorem modulated_params_bounds_witness :
    (1 : ℕ) ≤ 1 ∧
    (0.01 ≤ (step1^[1] initGame1).genome.Mu ∧ (step1^[1] initGame1).genome.Mu ≤ 1 ∧
      0.001 ≤ (step1^[1] initGame1).genome.Sigma ∧ (step1^[1] initGame1).genome.Sigma ≤ 1 ∧
      0 < (step1^[1] initGame1).genome.Sigma ∧
      (∀ u : ℝ, growth u (step1^[1] initGame1).genome.Mu (step1^[1] initGame1).genome.Sigma =
        2 * Real.exp (-((u - (step1^[1] initGame1).genome.Mu) *
            (u - (step1^[1] initGame1).genome.Mu)) /
          (2 * (step1^[1] initGame1).genome.Sigma * (step1^[1] initGame1).genome.Sigma)) - 1)) :=
  ⟨le_refl 1, modulated_params_bounds initGame1 1 (le_refl 1)⟩

-- ---------------------------------------------------------------------------
-- Determinism of the modulator, randomness of the initializer (C8)
-- ---------------------------------------------------------------------------

/-- The genome written by a tick, as a function of old genome and driver. -/
lemma step1_genome (g : Game1) :
    (step1 g).genome =
      { Mu := clamp (g.genome.Mu + 0.002 * Real.tanh ((lorenzStep g.lorenz).x / 20)) 0.01 1.0
        Sigma := clamp (g.genome.Sigma * (1 + 0.001 * (lorenzStep g.lorenz).y)) 0.001 1.0
        Dt := g.genome.Dt
        ColorBias := Real.tanh ((lorenzStep g.lorenz).z / 30) } := rfl

/-- The driver state written by a tick. -/
lemma step1_lorenz (g : Game1) : (step1 g).lorenz = lorenzStep g.lorenz := rfl

/-- C8 (amended): the GrowthParams sequence is a pure, deterministic function
of the initial driver state and genome alone: two engine states that agree on
driver and genome — whatever their (e.g. randomly initialized) fields —
produce identical genome and driver sequences over every number of ticks. -/
theorem modulator_independent_of_field (g1 g2 : Game1) (hl : g1.lorenz = g2.lorenz)
    (hg : g1.genome = g2.genome) (n : ℕ) :
    (step1^[n] g1).genome = (step1^[n] g2).genome ∧
    (step1^[n] g1).lorenz = (step1^[n] g2).lorenz := by
  induction n with
  | zero => exact ⟨hg, hl⟩
  | succ n ih =>
      obtain ⟨ihg, ihl⟩ := ih
      rw [Function.iterate_succ_apply', Function.iterate_succ_apply',
        step1_genome, step1_genome, step1_lorenz, step1_lorenz, ihg, ihl]
      exact ⟨rfl, rfl⟩

/-- Concrete FFT-engine state with a different (delta) field but the same
genome and driver as `initGame1`. -/
noncomputable def initGame1b : Game1 :=
  { A := fun y x => if y = 0 ∧ x = 0 then 1 else 0, Anext := fun _ _ => 0,
    genome := { Mu := 0.3, Sigma := 0.06, Dt := 0.08, ColorBias := 0 }, lorenz := NewLorenz }

/-- C8 witness: two states differing only in their fields give identical
genome and driver sequences over 3 ticks. -/
theorem modulator_independent_of_field_witness :
    initGame1.lorenz = initGame1b.lorenz ∧ initGame1.genome = initGame1b.genome ∧
    ((step1^[3] initGame1).genome = (step1^[3] initGame1b).genome ∧
      (step1^[3] initGame1).lorenz = (step1^[3] initGame1b).lorenz) :=
  ⟨rfl, rfl, modulator_independent_of_field initGame1 initGame1b rfl rfl 3⟩

/-- With a constant random stream, every cell the initializer loop has passed
holds the constant (when the perturbation test fires) or the blob value. -/
lemma initCells1_const (c : ℝ) :
    ∀ (k : ℕ) (y x : ℕ), x < 128 → y * 128 + x < k →
      (initCells1 (fun _ => c) k).1 (y : ℤ) (x : ℤ) =
        if c < 0.002 then c else blobVal1 y x := by
  intro k
  induction k with
  | zero => intro y x hx hk; omega
  | succ k ih =>
      intro y x hx hk
      have hne : ¬((y : ℤ) = ((k / 128 : ℕ) : ℤ) ∧ (x : ℤ) = ((k % 128 : ℕ) : ℤ)) →
          y * 128 + x ≠ k := by
        intro h hEq
        apply h
        have e1 : (y * 128 + x) / 128 = y := by omega
        have e2 : (y * 128 + x) % 128 = x := by omega
        rw [← hEq, e1, e2]
        exact ⟨rfl, rfl⟩
      simp only [initCells1]
      by_cases hc : c < 0.002
      · rw [if_pos hc]
        simp only [updateBuf]
        by_cases h : ((y : ℤ) = ((k / 128 : ℕ) : ℤ) ∧ (x : ℤ) = ((k % 128 : ℕ) : ℤ))
        · rw [if_pos h, if_pos hc]
        · rw [if_neg h]
          exact ih y x hx (by have := hne h; omega)
      · rw [if_neg hc]
        simp only [updateBuf]
        by_cases h : ((y : ℤ) = ((k / 128 : ℕ) : ℤ) ∧ (x : ℤ) = ((k % 128 : ℕ) : ℤ))
        · rw [if_pos h, if_neg hc, ← h.1, ← h.2]
        · rw [if_neg h]
          exact ih y x hx (by have := hne h; omega)

/-- The blob value at the grid center is 0.9. -/
lemma blobVal1_center : blobVal1 64 64 = 0.9 := by
  unfold blobVal1
  rw [show (64 : ℤ) - 64 = 0 by norm_num, distR_zero, if_pos (by norm_num)]
  rw [show (-(0 * 0 : ℝ) / (2 * 6 * 6)) = 0 by norm_num, Real.exp_zero]
  norm_num

/-- C8 counterexample: the initial field is a function of the ambient global
PRNG stream — which the code reseeds from the wall clock — and not of any
injectable seed parameter: runs whose streams differ (here the constant
streams 0 and 1/2) produce different initial fields, e.g. at cell (64,64)
one run holds 0 (every cell perturbed to the drawn value 0) and the other
holds the blob value 0.9 (no cell perturbed). -/
theorem initializer_depends_on_random_stream :
    initField1 (fun _ => 0) 64 64 = 0 ∧ initField1 (fun _ => 1 / 2) 64 64 = 0.9 ∧
    initField1 (fun _ => 0) 64 64 ≠ initField1 (fun _ => 1 / 2) 64 64 := by
  have hcast : (((64 : ℕ) : ℤ)) = (64 : ℤ) := by norm_num
  have hc1 : initField1 (fun _ => (0 : ℝ)) 64 64 = 0 := by
    have h := initCells1_const 0 (128 * 128) 64 64 (by norm_num) (by norm_num)
    rw [if_pos (by norm_num), hcast] at h
    exact h
  have hc2 : initField1 (fun _ => (1 / 2 : ℝ)) 64 64 = 0.9 := by
    have h := initCells1_const (1 / 2) (128 * 128) 64 64 (by norm_num) (by norm_num)
    rw [if_neg (by norm_num), hcast] at h
    exact h.trans blobVal1_center
  exact ⟨hc1, hc2, by rw [hc1, hc2]; norm_num⟩

-- ---------------------------------------------------------------------------
-- Transform strategy versus direct strategy (C1)
-- ---------------------------------------------------------------------------

/-- The integer ceiling of the radius 6. -/
lemma ceil_six : ⌈(6 : ℝ)⌉ = 6 := by
  rw [show (6 : ℝ) = ((6 : ℤ) : ℝ) by push_cast; ring]
  exact Int.ceil_intCast 6

/-- The raw ring weight depends only on the offset length, so it is symmetric
under offset negation. -/
lemma kernelRawW_neg (R ss : ℝ) (dx dy : ℤ) :
    kernelRawW R ss (-dx) (-dy) = kernelRawW R ss dx dy := by
  unfold kernelRawW distR
  simp only [Int.cast_neg, neg_sq]

/-- An offset farther than the radius in either coordinate carries no raw
weight. -/
lemma kernelRawW_eq_zero_of_outside (R ss : ℝ) (dx dy : ℤ)
    (h : R < |(dx : ℝ)| ∨ R < |(dy : ℝ)|) : kernelRawW R ss dx dy = 0 := by
  unfold kernelRawW
  rw [if_neg]
  intro hle
  unfold distR at hle
  rcases h with h | h
  · have h1 : |(dx : ℝ)| ≤ Real.sqrt ((dx : ℝ) ^ 2 + (dy : ℝ) ^ 2) := by
      rw [← Real.sqrt_sq_eq_abs]
      apply Real.sqrt_le_sqrt
      nlinarith [sq_nonneg ((dy : ℝ))]
    linarith
  · have h1 : |(dy : ℝ)| ≤ Real.sqrt ((dx : ℝ) ^ 2 + (dy : ℝ) ^ 2) := by
      rw [← Real.sqrt_sq_eq_abs]
      apply Real.sqrt_le_sqrt
      nlinarith [sq_nonneg ((dx : ℝ))]
    linarith

/-- A Kronecker delta field: 1 at cell (0,0), 0 everywhere else — a valid
Field with all cells in [0,1]. -/
def deltaBuf : Buf := fun y x => if y = 0 ∧ x = 0 then 1 else 0

/-- C1 counterexample: on the 128×128 grid with the engine's radius 6 and the
delta field, the direct strategy gives `U = 0` at cell (64,64) while the
transform strategy gives a strictly positive value (the kernel center weight
ends up at the half-grid offset because the dense kernel is anchored at the
array center); the difference exceeds any `1e-6` relative tolerance. -/
theorem transform_direct_disagree :
    Udir 128 128 6 shellSigma deltaBuf 64 64 = 0 ∧
    0 < Ufft 6 deltaBuf 64 64 ∧
    ¬ |Ufft 6 deltaBuf 64 64 - Udir 128 128 6 shellSigma deltaBuf 64 64| ≤
        1e-6 * max |Ufft 6 deltaBuf 64 64| |Udir 128 128 6 shellSigma deltaBuf 64 64| := by
  have hdir : Udir 128 128 6 shellSigma deltaBuf 64 64 = 0 := by
    unfold Udir
    apply Finset.sum_eq_zero
    intro p hp
    unfold offsetsK at hp
    rw [ceil_six] at hp
    obtain ⟨hp1, hp2⟩ := Finset.mem_product.mp hp
    rw [Finset.mem_Icc] at hp1 hp2
    have hw : wrap (64 + p.1) 128 = 64 + p.1 := by
      rw [wrap_eq_emod _ _ (by norm_num)]
      omega
    have hz : deltaBuf (wrap (64 + p.1) 128) (wrap (64 + p.2) 128) = 0 := by
      unfold deltaBuf
      rw [if_neg]
      intro hcontra
      rw [hw] at hcontra
      have := hcontra.1
      omega
    rw [hz, mul_zero]
  have hmem64 : ((64, 64) : ℤ × ℤ) ∈ gridCells1 := by
    unfold gridCells1
    rw [Finset.mem_product]
    constructor <;> rw [Finset.mem_Icc] <;> omega
  have hfft : Ufft 6 deltaBuf 64 64 = denseKernel 6 64 64 := by
    unfold Ufft
    rw [Finset.sum_eq_single_of_mem ((64, 64) : ℤ × ℤ) hmem64]
    · rw [show ((64 : ℤ) - (64, 64).1) % 128 = 0 by norm_num]
      unfold deltaBuf
      rw [if_pos ⟨rfl, rfl⟩, mul_one]
    · intro p hp hpne
      unfold gridCells1 at hp
      obtain ⟨hp1, hp2⟩ := Finset.mem_product.mp hp
      rw [Finset.mem_Icc] at hp1 hp2
      have hor : p.1 ≠ 64 ∨ p.2 ≠ 64 := by
        by_contra hcon
        push_neg at hcon
        exact hpne (Prod.ext hcon.1 hcon.2)
      have hz : deltaBuf ((64 - p.1) % 128) ((64 - p.2) % 128) = 0 := by
        unfold deltaBuf
        rw [if_neg]
        intro hcontra
        obtain ⟨hc1, hc2⟩ := hcontra
        rcases hor with h | h
        · exact h (by omega)
        · exact h (by omega)
      rw [hz, mul_zero]
  have hker : 0 < denseKernel 6 64 64 := by
    unfold denseKernel
    rw [show (64 : ℤ) - 64 = 0 by norm_num]
    exact kernelRawW_center_pos 6 shellSigma (by norm_num)
  refine ⟨hdir, by rw [hfft]; exact hker, ?_⟩
  rw [hdir, hfft]
  intro habs
  rw [sub_zero, abs_of_pos hker, abs_zero, max_eq_left hker.le] at habs
  linarith

/-- C1 (amended): the transform strategy does not realize the direct
strategy's operator; it equals the direct convolution evaluated at the
half-grid-shifted cell `(y-64, x-64)` and scaled by the dense kernel's total
(unnormalized) mass, because the dense kernel is anchored at the array center
and never normalized. -/
theorem transform_eq_scaled_shifted_direct (A : Buf) (y x : ℤ) :
    Ufft 6 A y x =
      kernelSum 6 shellSigma * Udir 128 128 6 shellSigma A (y - 64) (x - 64) := by
  have hS : kernelSum 6 shellSigma ≠ 0 :=
    ne_of_gt (kernelSum_pos 6 shellSigma (by norm_num))
  have h1 : Ufft 6 A y x =
      ∑ q ∈ Finset.Icc (-64 : ℤ) 63 ×ˢ Finset.Icc (-64 : ℤ) 63,
        kernelRawW 6 shellSigma q.2 q.1 *
          A ((y - 64 - q.1) % 128) ((x - 64 - q.2) % 128) := by
    unfold Ufft gridCells1 denseKernel
    refine Finset.sum_bij' (fun p _ => (p.1 - 64, p.2 - 64)) (fun q _ => (q.1 + 64, q.2 + 64))
      ?_ ?_ ?_ ?_ ?_
    · intro p hp
      obtain ⟨hp1, hp2⟩ := Finset.mem_product.mp hp
      rw [Finset.mem_Icc] at hp1 hp2
      rw [Finset.mem_product]
      constructor <;> rw [Finset.mem_Icc] <;> constructor <;> dsimp only <;> omega
    · intro q hq
      obtain ⟨hq1, hq2⟩ := Finset.mem_product.mp hq
      rw [Finset.mem_Icc] at hq1 hq2
      rw [Finset.mem_product]
      constructor <;> rw [Finset.mem_Icc] <;> constructor <;> dsimp only <;> omega
    · intro p hp
      exact Prod.ext (by dsimp only; omega) (by dsimp only; omega)
    · intro q hq
      exact Prod.ext (by dsimp only; omega) (by dsimp only; omega)
    · intro p hp
      dsimp only
      have e1 : y - 64 - (p.1 - 64) = y - p.1 := by ring
      have e2 : x - 64 - (p.2 - 64) = x - p.2 := by ring
      rw [e1, e2]
  have hsub : Finset.Icc (-6 : ℤ) 6 ×ˢ Finset.Icc (-6 : ℤ) 6 ⊆
      Finset.Icc (-64 : ℤ) 63 ×ˢ Finset.Icc (-64 : ℤ) 63 := by
    intro q hq
    obtain ⟨hq1, hq2⟩ := Finset.mem_product.mp hq
    rw [Finset.mem_Icc] at hq1 hq2
    rw [Finset.mem_product]
    constructor <;> rw [Finset.mem_Icc] <;> omega
  have h2 : (∑ q ∈ Finset.Icc (-64 : ℤ) 63 ×ˢ Finset.Icc (-64 : ℤ) 63,
        kernelRawW 6 shellSigma q.2 q.1 *
          A ((y - 64 - q.1) % 128) ((x - 64 - q.2) % 128)) =
      ∑ q ∈ Finset.Icc (-6 : ℤ) 6 ×ˢ Finset.Icc (-6 : ℤ) 6,
        kernelRawW 6 shellSigma q.2 q.1 *
          A ((y - 64 - q.1) % 128) ((x - 64 - q.2) % 128) := by
    symm
    apply Finset.sum_subset hsub
    intro q hq hnq
    have hout : q.1 < -6 ∨ 6 < q.1 ∨ q.2 < -6 ∨ 6 < q.2 := by
      by_contra hcon
      push_neg at hcon
      apply hnq
      rw [Finset.mem_product]
      constructor <;> rw [Finset.mem_Icc] <;> omega
    apply mul_eq_zero_of_left
    apply kernelRawW_eq_zero_of_outside
    rcases hout with h | h | h | h
    · right
      rw [lt_abs]
      right
      exact_mod_cast (by omega : (6 : ℤ) < -q.1)
    · right
      rw [lt_abs]
      left
      exact_mod_cast h
    · left
      rw [lt_abs]
      right
      exact_mod_cast (by omega : (6 : ℤ) < -q.2)
    · left
      rw [lt_abs]
      left
      exact_mod_cast h
  have h3 : (∑ q ∈ Finset.Icc (-6 : ℤ) 6 ×ˢ Finset.Icc (-6 : ℤ) 6,
        kernelRawW 6 shellSigma q.2 q.1 *
          A ((y - 64 - q.1) % 128) ((x - 64 - q.2) % 128)) =
      ∑ p ∈ Finset.Icc (-6 : ℤ) 6 ×ˢ Finset.Icc (-6 : ℤ) 6,
        kernelRawW 6 shellSigma p.2 p.1 *
          A (wrap (y - 64 + p.1) 128) (wrap (x - 64 + p.2) 128) := by
    refine Finset.sum_bij' (fun q _ => (-q.1, -q.2)) (fun p _ => (-p.1, -p.2)) ?_ ?_ ?_ ?_ ?_
    · intro q hq
      obtain ⟨hq1, hq2⟩ := Finset.mem_product.mp hq
      rw [Finset.mem_Icc] at hq1 hq2
      rw [Finset.mem_product]
      constructor <;> rw [Finset.mem_Icc] <;> constructor <;> dsimp only <;> omega
    · intro p hp
      obtain ⟨hp1, hp2⟩ := Finset.mem_product.mp hp
      rw [Finset.mem_Icc] at hp1 hp2
      rw [Finset.mem_product]
      constructor <;> rw [Finset.mem_Icc] <;> constructor <;> dsimp only <;> omega
    · intro q hq
      exact Prod.ext (by dsimp only; omega) (by dsimp only; omega)
    · intro p hp
      exact Prod.ext (by dsimp only; omega) (by dsimp only; omega)
    · intro q hq
      dsimp only
      rw [kernelRawW_neg 6 shellSigma q.2 q.1,
        wrap_eq_emod _ _ (by norm_num : (0 : ℤ) < 128),
        wrap_eq_emod _ _ (by norm_num : (0 : ℤ) < 128),
        show y - 64 + -q.1 = y - 64 - q.1 by ring,
        show x - 64 + -q.2 = x - 64 - q.2 by ring]
  have hoff : offsetsK 6 = Finset.Icc (-6 : ℤ) 6 ×ˢ Finset.Icc (-6 : ℤ) 6 := by
    unfold offsetsK
    rw [ceil_six]
  have h5 : kernelSum 6 shellSigma * Udir 128 128 6 shellSigma A (y - 64) (x - 64) =
      ∑ p ∈ Finset.Icc (-6 : ℤ) 6 ×ˢ Finset.Icc (-6 : ℤ) 6,
        kernelRawW 6 shellSigma p.2 p.1 *
          A (wrap (y - 64 + p.1) 128) (wrap (x - 64 + p.2) 128) := by
    unfold Udir kernelW
    rw [Finset.mul_sum, hoff]
    refine Finset.sum_congr rfl fun p _ => ?_
    rw [div_mul_eq_mul_div, mul_comm (kernelSum 6 shellSigma) _, div_mul_cancel₀ _ hS]
  rw [h1, h2, h3, h5]

/-- C6 witness: equivariance exercised at the zero-field state, shift (5,7),
cell (0,0). -/
theorem step_translation_equivariant_witness :
    (0 : ℤ) ≤ 0 ∧ (0 : ℤ) < 160 ∧ (0 : ℤ) < 240 ∧
    (step0 { zeroGame0 with A := shiftBuf zeroGame0.A 5 7 }).A 0 0 =
      shiftBuf (step0 zeroGame0).A 5 7 0 0 :=
  ⟨le_refl 0, by norm_num, by norm_num,
    step_translation_equivariant zeroGame0 5 7 0 0 (by norm_num) (by norm_num) (by norm_num)
      (by norm_num)⟩
